import Mathlib

/-!
# Verification of the Sunlight-Aware HOS Driver Schedule Optimizer

This file gives a shallow embedding of the core of the AWS_Hackathon
delivery-route planner and proves the specification claims about it.

Two parts of the repository are embedded:

* The frontend route-optimization form (`RouteOptimizationForm.tsx`):
  the `addStop` handler and the arrival-time validation inside
  `handleGoogleMapsRoute`.  These are translated directly from the
  TypeScript source.

* The backend schedule-optimizer core (sunlight risk model, HOS
  constraint engine, break/rest placement optimizer, schedule
  assembler).  The Python backend implementing these is not part of the
  repository snapshot (only its embedded documentation is), so these
  definitions are modelled from the specification, as noted on each
  definition.  Times are modelled in whole seconds, instants as integer
  offsets; risk scores are rationals.
-/

/-! ## Frontend: route-optimization form -/

/-- Coordinate pair as used by the form (`{ lat, lng }`).  JavaScript
numbers are modelled as rationals. -/
structure Coordinates where
  lat : ℚ
  lng : ℚ
deriving Repr, DecidableEq

/-- A `Location` as used by the form: a free-text address plus
coordinates. -/
structure Location where
  address : String
  coordinates : Coordinates
deriving Repr, DecidableEq

/-- The empty pending-stop value the form resets to:
`{ address: "", coordinates: { lat: 0, lng: 0 } }`. -/
def emptyLocation : Location := ⟨"", ⟨0, 0⟩⟩

/-- The `addStop` handler from `RouteOptimizationForm.tsx`: appends `newStop` to
`stops` and resets the pending stop to `emptyLocation` when
`newStop.address && newStop.coordinates.lat !== 0 &&
newStop.coordinates.lng !== 0`; otherwise leaves both unchanged.
The result is the pair (new stops list, new pending stop).  JavaScript
string truthiness is non-emptiness. -/
def addStop (stops : List Location) (newStop : Location) : List Location × Location :=
  if newStop.address ≠ "" ∧ newStop.coordinates.lat ≠ 0 ∧ newStop.coordinates.lng ≠ 0 then
    (stops ++ [newStop], emptyLocation)
  else
    (stops, newStop)

/-- The relevant fields of the Google route `summary` object
(`GoogleRouteSummary` in `RouteOptimizationForm.tsx`). -/
structure GoogleRouteSummary where
  distance_meters : Int
  duration_seconds : Int
  duration_in_traffic_seconds : Option Int
deriving Repr, DecidableEq

/-- The travel-seconds expression of the arrival validation in
`handleGoogleMapsRoute`:
`response.summary?.duration_in_traffic_seconds ?? response.summary?.duration_seconds`. -/
def responseTravelSeconds (summary : Option GoogleRouteSummary) : Option Int :=
  match summary with
  | none => none
  | some s =>
    match s.duration_in_traffic_seconds with
    | some t => some t
    | none => some s.duration_seconds

/-- Observable outcome of the successful-response tail of
`handleGoogleMapsRoute`: whether the insufficient-delivery-time error
was set, the stored required-arrival value afterwards (`none`
models the empty string), and whether the sunlight-risk request and the
parent `onRouteOptimized` callback were issued. -/
structure RouteHandlerResult where
  insufficientTimeError : Bool
  preferredArrivalAfter : Option Int
  sunlightRequested : Bool
  parentNotified : Bool
deriving Repr, DecidableEq

/-- The arrival-validation tail of `handleGoogleMapsRoute` in
`RouteOptimizationForm.tsx` (the code run once the route response has
`success: true`).  Times are epoch milliseconds; `preferredStartMs` and
`preferredArrivalMs` are `none` when the corresponding form field is
empty.  The JavaScript guard `if (responseTravelSeconds && ...)` makes
the whole validation a no-op when the travel seconds value is absent or
zero (number truthiness); otherwise the handler errors, clears the
required arrival, and returns early exactly when the estimated arrival
is strictly later than the required arrival. -/
def handleGoogleMapsRoute (preferredStartMs : Option Int) (nowMs : Int)
    (preferredArrivalMs : Option Int) (summary : Option GoogleRouteSummary) :
    RouteHandlerResult :=
  match preferredArrivalMs with
  | none => ⟨false, none, true, true⟩
  | some required =>
    match responseTravelSeconds summary with
    | none => ⟨false, some required, true, true⟩
    | some t =>
      if t ≠ 0 ∧ required < preferredStartMs.getD nowMs + t * 1000 then
        ⟨true, none, false, false⟩
      else
        ⟨false, some required, true, true⟩

/-! ## Sunlight risk model -/

/-- Risk level labels of the sunlight risk model. -/
inductive RiskLevel where
  | critical
  | high
  | moderateHigh
  | moderate
  | low
  | veryLow
deriving Repr, DecidableEq

/-- A sunlight risk assessment: 0-100 score, level label, daytime
flag. -/
structure RiskAssessment where
  score : ℚ
  level : RiskLevel
  isDaytime : Bool
deriving Repr, DecidableEq

/-- Modelled from the spec: the angular offset between travel direction
and sun direction,
`angleDiff = min(|bearing - azimuth|, 360 - |bearing - azimuth|)`. -/
def angleDiff (bearing azimuth : ℚ) : ℚ :=
  min |bearing - azimuth| (360 - |bearing - azimuth|)

/-- Modelled from the spec: the Sunlight Risk Model (the backend code
implementing it is not in the repository snapshot; this follows the
spec's ordered policy).  Below the horizon the scores are the fixed
75 / 60 / 45; in the daytime brackets the spec only fixes the score
band, so each band uses a monotone linear interpolation consistent with
its stated boundary values. -/
def assessSunlightRisk (altitude bearing azimuth : ℚ) : RiskAssessment :=
  if altitude < 0 then
    if altitude < -12 then ⟨75, .high, false⟩
    else if altitude < -6 then ⟨60, .moderateHigh, false⟩
    else ⟨45, .moderate, false⟩
  else
    let d := angleDiff bearing azimuth
    if altitude < 15 ∧ d < 30 then
      ⟨80 + 10 * ((15 - altitude) / 15) + 10 * ((30 - d) / 30), .critical, true⟩
    else if altitude < 30 ∧ d < 30 then
      ⟨60 + 20 * ((30 - altitude) / 30), .high, true⟩
    else if altitude < 30 then
      ⟨40 + 20 * ((30 - altitude) / 30), .moderate, true⟩
    else
      ⟨20 + 20 * min 1 ((90 - altitude) / 60), .low, true⟩

/-! ## HOS constraint engine (modelled from the spec) -/

/-- Modelled from the spec: maximum continuous driving before a
mandatory break, 8 hours in seconds. -/
def hosBreakAfterSeconds : Nat := 8 * 3600

/-- Modelled from the spec: mandatory break duration, 30 minutes in
seconds. -/
def hosBreakDurationSeconds : Nat := 30 * 60

/-- Modelled from the spec: maximum driving within one duty window,
11 hours in seconds. -/
def hosMaxDrivingSeconds : Nat := 11 * 3600

/-- Modelled from the spec: maximum on-duty window, 14 hours in
seconds. -/
def hosMaxOnDutySeconds : Nat := 14 * 3600

/-- Modelled from the spec: mandatory rest duration, 10 hours in
seconds. -/
def hosRestDurationSeconds : Nat := 10 * 3600

/-- Modelled from the spec: optimizer high-risk threshold (risk score
that triggers optimization). -/
def optHighRiskThreshold : ℚ := 70

/-- Modelled from the spec: optimizer look-ahead window, 4 hours in
seconds. -/
def optLookAheadSeconds : Nat := 4 * 3600

/-- Modelled from the spec: break defer tolerance, 1 hour in
seconds. -/
def optBreakDeferToleranceSeconds : Nat := 3600

/-- Modelled from the spec: rest defer tolerance, 2 hours in
seconds. -/
def optRestDeferToleranceSeconds : Nat := 2 * 3600

/-- Modelled from the spec: the mutable driver state of the HOS
constraint engine — cumulative driving seconds since the last 30-minute
break, cumulative driving seconds within the current duty window
(since the last 10-hour rest), and cumulative on-duty seconds within
the current duty window.  Wall-clock time is tracked separately by the
schedule assembler. -/
structure DriverState where
  drivingSinceBreak : Nat
  drivingInWindow : Nat
  onDutyInWindow : Nat
deriving Repr, DecidableEq

/-- Modelled from the spec: driving for d seconds increases all three
counters. -/
def applyDrive (s : DriverState) (d : Nat) : DriverState :=
  ⟨s.drivingSinceBreak + d, s.drivingInWindow + d, s.onDutyInWindow + d⟩

/-- Modelled from the spec: a 30-minute break resets
driving-since-break and counts toward the on-duty window. -/
def applyBreak (s : DriverState) : DriverState :=
  ⟨0, s.drivingInWindow, s.onDutyInWindow + hosBreakDurationSeconds⟩

/-- Modelled from the spec: a 10-hour rest resets all counters at rest
completion. -/
def applyRest (_ : DriverState) : DriverState := ⟨0, 0, 0⟩

/-- Seconds of further driving until the continuous-driving (8-hour)
threshold is reached. -/
def breakSlack (s : DriverState) : Nat := hosBreakAfterSeconds - s.drivingSinceBreak

/-- Seconds of further driving until a rest threshold (11-hour driving
or 14-hour on-duty) is reached. -/
def restSlack (s : DriverState) : Nat :=
  min (hosMaxDrivingSeconds - s.drivingInWindow) (hosMaxOnDutySeconds - s.onDutyInWindow)

/-- Modelled from the spec: the HOS engine's decision for a proposed
drive. -/
inductive Decision where
  | continueDriving
  | breakRequired (offsetSeconds : Nat)
  | restRequired (offsetSeconds : Nat)
deriving Repr, DecidableEq

/-- Modelled from the spec: `advance(driverState, proposedDriveSeconds)`.
Edge-triggered at the exact offset where a threshold is reached: the
proposed drive is accepted in full only if it reaches no threshold
strictly before its end; otherwise the earliest-crossed threshold wins,
rest taking priority over break at equal offsets. -/
def advance (s : DriverState) (proposed : Nat) : Decision :=
  if restSlack s < proposed ∧ restSlack s ≤ breakSlack s then .restRequired (restSlack s)
  else if breakSlack s < proposed then .breakRequired (breakSlack s)
  else .continueDriving

/-! ## Schedule events -/

/-- Modelled from the spec: a schedule event.  Instants are absolute
integer seconds; durations are in seconds (the spec's 30-minute break
is 1800 seconds, the 10-hour rest 36000 seconds). -/
inductive ScheduleEvent where
  | drive (segIndex : Nat) (start : Int) (durationSeconds : Nat)
  | brk (start : Int) (durationSeconds : Nat) (optimized : Bool) (riskScore : Option ℚ)
  | rest (start : Int) (durationSeconds : Nat) (optimized : Bool) (riskScore : Option ℚ)
  | safetyWait (start : Int) (durationSeconds : Nat)
deriving Repr, DecidableEq

/-- Start instant of an event. -/
def ScheduleEvent.startTime : ScheduleEvent → Int
  | .drive _ t _ => t
  | .brk t _ _ _ => t
  | .rest t _ _ _ => t
  | .safetyWait t _ => t

/-- Duration of an event in seconds. -/
def ScheduleEvent.durationSec : ScheduleEvent → Nat
  | .drive _ _ d => d
  | .brk _ d _ _ => d
  | .rest _ d _ _ => d
  | .safetyWait _ d => d

/-- End instant of an event. -/
def ScheduleEvent.endTime (e : ScheduleEvent) : Int := e.startTime + e.durationSec

/-- Driving seconds contributed by an event. -/
def driveSeconds : ScheduleEvent → Nat
  | .drive _ _ d => d
  | _ => 0

/-- Stop seconds contributed by an event. -/
def stopSeconds : ScheduleEvent → Nat
  | .drive _ _ _ => 0
  | .brk _ d _ _ => d
  | .rest _ d _ _ => d
  | .safetyWait _ d => d

/-- Total driving seconds of an event list. -/
def driveSum (l : List ScheduleEvent) : Nat := (l.map driveSeconds).sum

/-- Total stop seconds of an event list. -/
def stopSum (l : List ScheduleEvent) : Nat := (l.map stopSeconds).sum

/-- Whether an event is a stop (anything but a drive). -/
def isStopEvent : ScheduleEvent → Bool
  | .drive _ _ _ => false
  | _ => true

/-- Whether an event is a stop marked as optimized. -/
def optimizedStop : ScheduleEvent → Bool
  | .brk _ _ b _ => b
  | .rest _ _ b _ => b
  | _ => false

/-- The risk score recorded on a stop event, if any. -/
def riskScoreOf : ScheduleEvent → Option ℚ
  | .brk _ _ _ r => r
  | .rest _ _ _ r => r
  | _ => none

/-- Replaying one event through the driver-state transitions: a drive
advances all counters, a break resets driving-since-break and adds its
duration to the on-duty window, a rest resets everything, a safety wait
adds its duration to the on-duty window. -/
def applyEvent (s : DriverState) : ScheduleEvent → DriverState
  | .drive _ _ d => applyDrive s d
  | .brk _ d _ _ => ⟨0, s.drivingInWindow, s.onDutyInWindow + d⟩
  | .rest _ _ _ _ => ⟨0, 0, 0⟩
  | .safetyWait _ d => ⟨s.drivingSinceBreak, s.drivingInWindow, s.onDutyInWindow + d⟩

/-- Replays an event list from a starting driver state and checks that
at the end of every Drive event the three HOS counters are within their
limits: driving-since-break at most 8 hours, driving within the duty
window at most 11 hours, on-duty within the window at most 14 hours. -/
def driveEndsOk : DriverState → List ScheduleEvent → Bool
  | _, [] => true
  | s, e :: l =>
    (match e with
     | .drive _ _ d =>
       decide ((applyDrive s d).drivingSinceBreak ≤ hosBreakAfterSeconds ∧
         (applyDrive s d).drivingInWindow ≤ hosMaxDrivingSeconds ∧
         (applyDrive s d).onDutyInWindow ≤ hosMaxOnDutySeconds)
     | _ => true) && driveEndsOk (applyEvent s e) l

/-- Replays an event list from a starting driver state and checks that
the HOS engine answers ContinueDriving for every Drive event. -/
def replayContinue : DriverState → List ScheduleEvent → Bool
  | _, [] => true
  | s, e :: l =>
    (match e with
     | .drive _ _ d => decide (advance s d = Decision.continueDriving)
     | _ => true) && replayContinue (applyEvent s e) l

/-- Checks that an event list is contiguous: the first event starts at
t, each event starts where the previous one ended, and the last event
ends at tEnd (with t = tEnd for the empty list). -/
def contiguousFrom : Int → List ScheduleEvent → Int → Bool
  | t, [], tEnd => decide (t = tEnd)
  | t, e :: l, tEnd => decide (e.startTime = t) && contiguousFrom e.endTime l tEnd

/-- Index of the first Drive event's segment in an event list. -/
def firstDriveIndex : List ScheduleEvent → Option Nat
  | [] => none
  | .drive i _ _ :: _ => some i
  | _ :: l => firstDriveIndex l

/-- Checks that every optimized stop records a risk score that is at
least the high-risk threshold and equals riskOf applied to the segment
driven immediately after the stop (the segment in progress at the
stop's start instant). -/
def optStopsOk (riskOf : Nat → ℚ) : List ScheduleEvent → Bool
  | [] => true
  | e :: l =>
    (if optimizedStop e then
       match riskScoreOf e, firstDriveIndex l with
       | some r, some i => decide (r = riskOf i ∧ optHighRiskThreshold ≤ r)
       | _, _ => false
     else true) && optStopsOk riskOf l

/-- Checks that an event list contains no Break/Rest/SafetyWait. -/
def noStops : List ScheduleEvent → Bool
  | [] => true
  | e :: l => !isStopEvent e && noStops l

/-- Checks that every Break lasts exactly 30 minutes, every Rest
exactly 600 minutes, and that no SafetyWait occurs. -/
def stopsRegulation : List ScheduleEvent → Bool
  | [] => true
  | .brk _ d _ _ :: l => decide (d = hosBreakDurationSeconds) && stopsRegulation l
  | .rest _ d _ _ :: l => decide (d = hosRestDurationSeconds) && stopsRegulation l
  | .safetyWait _ _ :: _ => false
  | .drive _ _ _ :: l => stopsRegulation l

/-! ## Break/rest placement optimizer (modelled from the spec) -/

/-- A validated route segment as consumed by the assembler: original
index, memoized risk score, (remaining) driving duration in seconds.
All durations are positive by construction. -/
structure VSeg where
  index : Nat
  risk : ℚ
  duration : Nat
deriving Repr, DecidableEq

/-- Total driving seconds of a validated segment list. -/
def segsDuration (l : List VSeg) : Nat := (l.map VSeg.duration).sum

/-- Modelled from the spec: scan forward through the upcoming travel
timeline (current position first), bounded by the 4-hour look-ahead
window, for the nearest point whose memoized risk score reaches the
high-risk threshold; returns its offset from the current position and
its risk score. -/
def findHighRisk : List VSeg → Nat → Option (Nat × ℚ)
  | [], _ => none
  | seg :: rest, acc =>
    if optLookAheadSeconds < acc then none
    else if optHighRiskThreshold ≤ seg.risk then some (acc, seg.risk)
    else findHighRisk rest (acc + seg.duration)

/-- The optimizer's decision for one mandatory stop: the driving offset
(from the current position) at which the stop starts, the optimized
flag, and the recorded risk score. -/
structure StopPlan where
  offset : Nat
  optimized : Bool
  riskScore : Option ℚ
deriving Repr, DecidableEq

/-- Modelled from the spec: the break/rest placement optimizer.  When
the HOS engine mandates a stop at mandatedOffset seconds of further
driving, scan the upcoming travel for the nearest high-risk point; if
one exists at offset dt not later than the mandated instant and within
the defer tolerance of it, the stop is moved to that point and marked
optimized, else it stays at the HOS-mandated instant unmarked.  A
deferral past the mandated instant would push an HOS counter over its
threshold, so correctness clamps it to the mandated instant
(correctness dominates optimization). -/
def planStop (segs : List VSeg) (mandatedOffset tolerance : Nat) : StopPlan :=
  match findHighRisk segs 0 with
  | none => ⟨mandatedOffset, false, none⟩
  | some (dt, r) =>
    if dt ≤ mandatedOffset ∧ mandatedOffset ≤ dt + tolerance then
      ⟨dt, true, some r⟩
    else
      ⟨mandatedOffset, false, none⟩

/-! ## Schedule assembler (modelled from the spec) -/

/-- Modelled from the spec: the assembler loop.  Walks the validated
segments, asking the HOS engine about each remaining chunk; on
ContinueDriving it emits the Drive event and moves on, on a mandated
break/rest it asks the optimizer for the stop's placement, emits the
(possibly empty) leading Drive and the stop event, applies the stop to
the driver state and the wall clock, and resumes with the remainder of
the current segment.  The fuel argument is a structural-recursion
bound; computeSchedule supplies one large enough for the loop to
finish.  Returns the events plus the final driver state and elapsed
seconds. -/
def scheduleLoop (departure : Int) :
    Nat → DriverState → Nat → List VSeg → Option (List ScheduleEvent × DriverState × Nat)
  | 0, _, _, _ => none
  | _ + 1, s, elapsed, [] => some ([], s, elapsed)
  | fuel + 1, s, elapsed, seg :: rest =>
    match advance s seg.duration with
    | .continueDriving =>
      match scheduleLoop departure fuel (applyDrive s seg.duration)
          (elapsed + seg.duration) rest with
      | none => none
      | some (evs, sEnd, eEnd) =>
        some (.drive seg.index (departure + elapsed) seg.duration :: evs, sEnd, eEnd)
    | .breakRequired ob =>
      let plan := planStop (seg :: rest) ob optBreakDeferToleranceSeconds
      let o := plan.offset
      match scheduleLoop departure fuel (applyBreak (applyDrive s o))
          (elapsed + o + hosBreakDurationSeconds)
          (⟨seg.index, seg.risk, seg.duration - o⟩ :: rest) with
      | none => none
      | some (evs, sEnd, eEnd) =>
        let brkEv : ScheduleEvent :=
          .brk (departure + (elapsed + o)) hosBreakDurationSeconds plan.optimized plan.riskScore
        if o = 0 then some (brkEv :: evs, sEnd, eEnd)
        else some (.drive seg.index (departure + elapsed) o :: brkEv :: evs, sEnd, eEnd)
    | .restRequired orr =>
      let plan := planStop (seg :: rest) orr optRestDeferToleranceSeconds
      let o := plan.offset
      match scheduleLoop departure fuel (applyRest (applyDrive s o))
          (elapsed + o + hosRestDurationSeconds)
          (⟨seg.index, seg.risk, seg.duration - o⟩ :: rest) with
      | none => none
      | some (evs, sEnd, eEnd) =>
        let restEv : ScheduleEvent :=
          .rest (departure + (elapsed + o)) hosRestDurationSeconds plan.optimized plan.riskScore
        if o = 0 then some (restEv :: evs, sEnd, eEnd)
        else some (.drive seg.index (departure + elapsed) o :: restEv :: evs, sEnd, eEnd)

/-- An input route segment: distance in meters and nominal duration in
seconds, both signed so that invalid (negative) inputs are
representable.  (Non-finite floating-point durations have no
counterpart in this embedding.) -/
structure RouteSegment where
  distanceMeters : Int
  durationSeconds : Int
deriving Repr, DecidableEq

/-- Index of the first segment with negative duration or distance,
starting the count at i. -/
def firstInvalid : Nat → List RouteSegment → Option Nat
  | _, [] => none
  | i, sg :: rest =>
    if sg.durationSeconds < 0 ∨ sg.distanceMeters < 0 then some i
    else firstInvalid (i + 1) rest

/-- Builds the validated segment list: keeps positive-duration segments
with their original index and the memoized risk score riskOf index
(the spec's precomputed per-segment risk array); zero-duration segments
contribute no driving time and no event. -/
def validSegs (riskOf : Nat → ℚ) : Nat → List RouteSegment → List VSeg
  | _, [] => []
  | i, sg :: rest =>
    if 0 < sg.durationSeconds then
      ⟨i, riskOf i, sg.durationSeconds.toNat⟩ :: validSegs riskOf (i + 1) rest
    else validSegs riskOf (i + 1) rest

/-- Modelled from the spec: the typed error kinds of the core. -/
inductive ScheduleError where
  | emptyRoute
  | invalidSegment (index : Nat)
  | invalidInput
deriving Repr, DecidableEq

/-- Modelled from the spec: the emitted schedule. -/
structure Schedule where
  departureTime : Int
  estimatedArrival : Int
  totalDrivingSeconds : Nat
  totalElapsedSeconds : Nat
  events : List ScheduleEvent
  hosCompliant : Bool
deriving Repr, DecidableEq

/-- Modelled from the spec: `computeSchedule(segments, departureTime)`,
the sole entry point (the Python backend implementing it is not in the
repository snapshot).  Fails with EmptyRoute on zero segments and with
InvalidSegment (carrying the offending index) on a negative duration or
distance; otherwise it runs the assembler loop over the validated
segments, with the per-segment risk scores supplied as the memoized
risk array riskOf.  The HOS-compliant flag is the replayed
end-of-drive compliance check over the emitted events. -/
def computeSchedule (riskOf : Nat → ℚ) (segments : List RouteSegment) (departure : Int) :
    Except ScheduleError Schedule :=
  if segments.isEmpty then .error .emptyRoute
  else
    match firstInvalid 0 segments with
    | some i => .error (.invalidSegment i)
    | none =>
      match scheduleLoop departure (4 * segsDuration (validSegs riskOf 0 segments) + 4)
          ⟨0, 0, 0⟩ 0 (validSegs riskOf 0 segments) with
      | none => .error .invalidInput
      | some (evs, _, finalElapsed) =>
        .ok ⟨departure, departure + finalElapsed, segsDuration (validSegs riskOf 0 segments),
          finalElapsed, evs, driveEndsOk ⟨0, 0, 0⟩ evs⟩

/-- The driver-state invariant between loop steps: driving-since-break
and driving-in-window never exceed their limits; the on-duty counter
may exceed the 14-hour window by at most one break length (a break
taken at the window edge), which forces a rest before any further
driving. -/
def stateOk (s : DriverState) : Prop :=
  s.drivingSinceBreak ≤ hosBreakAfterSeconds ∧
    s.drivingInWindow ≤ hosMaxDrivingSeconds ∧
    s.onDutyInWindow ≤ hosMaxOnDutySeconds + hosBreakDurationSeconds

/-- Modelled from the spec: the optimizer deferral rule exactly as
Claim C3 words it — whenever the engine mandates a stop, if the scan
finds a nearest high-risk point at offset dt with dt at most the defer
tolerance, the stop starts at dt marked optimized; in every other case
it starts at the unmodified HOS-mandated instant unmarked.  (A second
definition, following the claim's words, for comparison with
planStop.) -/
def claimedPlanStop (segs : List VSeg) (mandatedOffset tolerance : Nat) : StopPlan :=
  match findHighRisk segs 0 with
  | none => ⟨mandatedOffset, false, none⟩
  | some (dt, r) =>
    if dt ≤ tolerance then ⟨dt, true, some r⟩
    else ⟨mandatedOffset, false, none⟩

/-! ## Frontend and risk-model claims -/

/-- The angular offset is nonnegative whenever both directions are in
the 0-360 range. -/
theorem angleDiff_nonneg {bearing azimuth : ℚ} (hb0 : 0 ≤ bearing) (hb1 : bearing ≤ 360)
    (ha0 : 0 ≤ azimuth) (ha1 : azimuth ≤ 360) : 0 ≤ angleDiff bearing azimuth := by
  unfold angleDiff
  refine le_min (abs_nonneg _) ?_
  rw [sub_nonneg]
  exact abs_le.mpr ⟨by linarith, by linarith⟩

/-- Claim C2: the Sunlight Risk Model is the spec's ordered piecewise
policy of (altitude, bearing, azimuth): below the horizon the fixed
scores 75 High, 60 Moderate-High, 45 Moderate for the three twilight
bands; above the horizon the four daytime brackets determined by
altitude and the bearing/azimuth angular offset, with scores in the
stated 80-100 / 60-80 / 40-60 / 20-40 bands, first matching branch
winning. -/
theorem assessSunlightRisk_spec (altitude bearing azimuth : ℚ)
    (_halt0 : -90 ≤ altitude) (halt1 : altitude ≤ 90)
    (hb0 : 0 ≤ bearing) (hb1 : bearing ≤ 360)
    (ha0 : 0 ≤ azimuth) (ha1 : azimuth ≤ 360) :
    (altitude < -12 →
      assessSunlightRisk altitude bearing azimuth = ⟨75, .high, false⟩) ∧
    (-12 ≤ altitude → altitude < -6 →
      assessSunlightRisk altitude bearing azimuth = ⟨60, .moderateHigh, false⟩) ∧
    (-6 ≤ altitude → altitude < 0 →
      assessSunlightRisk altitude bearing azimuth = ⟨45, .moderate, false⟩) ∧
    (0 ≤ altitude → altitude < 15 → angleDiff bearing azimuth < 30 →
      (assessSunlightRisk altitude bearing azimuth).level = .critical ∧
      80 ≤ (assessSunlightRisk altitude bearing azimuth).score ∧
      (assessSunlightRisk altitude bearing azimuth).score ≤ 100) ∧
    (15 ≤ altitude → altitude < 30 → angleDiff bearing azimuth < 30 →
      (assessSunlightRisk altitude bearing azimuth).level = .high ∧
      60 ≤ (assessSunlightRisk altitude bearing azimuth).score ∧
      (assessSunlightRisk altitude bearing azimuth).score ≤ 80) ∧
    (0 ≤ altitude → altitude < 30 → 30 ≤ angleDiff bearing azimuth →
      (assessSunlightRisk altitude bearing azimuth).level = .moderate ∧
      40 ≤ (assessSunlightRisk altitude bearing azimuth).score ∧
      (assessSunlightRisk altitude bearing azimuth).score ≤ 60) ∧
    (30 ≤ altitude →
      (assessSunlightRisk altitude bearing azimuth).level = .low ∧
      20 ≤ (assessSunlightRisk altitude bearing azimuth).score ∧
      (assessSunlightRisk altitude bearing azimuth).score ≤ 40) := by
  have hd0 : 0 ≤ angleDiff bearing azimuth := angleDiff_nonneg hb0 hb1 ha0 ha1
  refine ⟨?_, ?_, ?_, ?_, ?_, ?_, ?_⟩
  · intro h
    simp only [assessSunlightRisk]
    rw [if_pos (by linarith : altitude < 0), if_pos h]
  · intro h1 h2
    simp only [assessSunlightRisk]
    rw [if_pos (by linarith : altitude < 0), if_neg (by linarith : ¬altitude < -12),
      if_pos h2]
  · intro h1 h2
    simp only [assessSunlightRisk]
    rw [if_pos h2, if_neg (by linarith : ¬altitude < -12),
      if_neg (by linarith : ¬altitude < -6)]
  · intro h0 h15 hd
    simp only [assessSunlightRisk]
    rw [if_neg (not_lt.mpr h0), if_pos (And.intro h15 hd)]
    refine ⟨rfl, ?_, ?_⟩
    · have t1 : 0 ≤ (15 - altitude) / 15 := div_nonneg (by linarith) (by norm_num)
      have t2 : 0 ≤ (30 - angleDiff bearing azimuth) / 30 :=
        div_nonneg (by linarith) (by norm_num)
      simp only
      linarith
    · have t1 : (15 - altitude) / 15 ≤ 1 := by
        rw [div_le_one (by norm_num : (0:ℚ) < 15)]; linarith
      have t2 : (30 - angleDiff bearing azimuth) / 30 ≤ 1 := by
        rw [div_le_one (by norm_num : (0:ℚ) < 30)]; linarith
      simp only
      linarith
  · intro h15 h30 hd
    simp only [assessSunlightRisk]
    rw [if_neg (by linarith : ¬altitude < 0),
      if_neg (by intro hc; exact absurd hc.1 (not_lt.mpr h15)),
      if_pos (And.intro h30 hd)]
    refine ⟨rfl, ?_, ?_⟩
    · have t1 : 0 ≤ (30 - altitude) / 30 := div_nonneg (by linarith) (by norm_num)
      simp only
      linarith
    · have t1 : (30 - altitude) / 30 ≤ 1 := by
        rw [div_le_one (by norm_num : (0:ℚ) < 30)]; linarith
      simp only
      linarith
  · intro h0 h30 hd
    simp only [assessSunlightRisk]
    rw [if_neg (not_lt.mpr h0),
      if_neg (by intro hc; exact absurd hd (not_le.mpr hc.2)),
      if_neg (by intro hc; exact absurd hd (not_le.mpr hc.2)),
      if_pos h30]
    refine ⟨rfl, ?_, ?_⟩
    · have t1 : 0 ≤ (30 - altitude) / 30 := div_nonneg (by linarith) (by norm_num)
      simp only
      linarith
    · have t1 : (30 - altitude) / 30 ≤ 1 := by
        rw [div_le_one (by norm_num : (0:ℚ) < 30)]; linarith
      simp only
      linarith
  · intro h30
    simp only [assessSunlightRisk]
    rw [if_neg (by linarith : ¬altitude < 0),
      if_neg (by intro hc; exact absurd hc.1 (by linarith : ¬altitude < 15)),
      if_neg (by intro hc; exact absurd hc.1 (by linarith : ¬altitude < 30)),
      if_neg (by linarith : ¬altitude < 30)]
    refine ⟨rfl, ?_, ?_⟩
    · have t1 : 0 ≤ min 1 ((90 - altitude) / 60) := by
        refine le_min (by norm_num) ?_
        exact div_nonneg (by linarith) (by norm_num)
      simp only
      linarith
    · have t1 : min 1 ((90 - altitude) / 60) ≤ 1 := min_le_left _ _
      simp only
      linarith

/-- Witness for C2: concrete evaluations in the nighttime band and in
the Critical daytime bracket. -/
theorem assessSunlightRisk_spec_witness :
    assessSunlightRisk (-45) 90 270 = ⟨75, .high, false⟩ ∧
    ((assessSunlightRisk 10 80 90).level = .critical ∧
      80 ≤ (assessSunlightRisk 10 80 90).score ∧
      (assessSunlightRisk 10 80 90).score ≤ 100) :=
  ⟨(assessSunlightRisk_spec (-45) 90 270 (by norm_num) (by norm_num) (by norm_num)
      (by norm_num) (by norm_num) (by norm_num)).1 (by norm_num),
    (assessSunlightRisk_spec 10 80 90 (by norm_num) (by norm_num) (by norm_num)
      (by norm_num) (by norm_num) (by norm_num)).2.2.2.1 (by norm_num) (by norm_num)
      (by unfold angleDiff; norm_num)⟩

/-! ## Frontend claims -/

/-- Claim C9: `addStop` appends the pending stop (and resets the
pending input to the empty location) precisely when its address is
non-empty and both coordinates differ from 0; in every other case,
including points on the equator or the prime meridian, the stops list
is unchanged. -/
theorem addStop_spec (stops : List Location) (s : Location) :
    (addStop stops s = (stops ++ [s], emptyLocation) ↔
      s.address ≠ "" ∧ s.coordinates.lat ≠ 0 ∧ s.coordinates.lng ≠ 0) ∧
    (¬(s.address ≠ "" ∧ s.coordinates.lat ≠ 0 ∧ s.coordinates.lng ≠ 0) →
      addStop stops s = (stops, s)) ∧
    ((s.coordinates.lat = 0 ∨ s.coordinates.lng = 0) → (addStop stops s).1 = stops) := by
  by_cases h : s.address ≠ "" ∧ s.coordinates.lat ≠ 0 ∧ s.coordinates.lng ≠ 0
  · refine ⟨⟨fun _ => h, fun _ => by rw [addStop, if_pos h]⟩, fun hc => absurd h hc, ?_⟩
    intro h0
    rcases h0 with h0 | h0
    · exact absurd h0 h.2.1
    · exact absurd h0 h.2.2
  · have he : addStop stops s = (stops, s) := by rw [addStop, if_neg h]
    refine ⟨⟨fun heq => ?_, fun hc => absurd hc h⟩, fun _ => he, fun _ => by rw [he]⟩
    exfalso
    have h1 : stops = stops ++ [s] := congrArg Prod.fst (he.symm.trans heq)
    have h2 : stops.length = stops.length + 1 := by
      calc stops.length = (stops ++ [s]).length := by rw [← h1]
        _ = stops.length + 1 := by simp
    omega

/-- Witness for C9: a concrete stop with non-zero coordinates is
appended and the input resets; a concrete stop on the equator leaves
the list unchanged. -/
theorem addStop_spec_witness :
    addStop [] ⟨"Santa Clara University", ⟨37, -121⟩⟩ =
      ([⟨"Santa Clara University", ⟨37, -121⟩⟩], emptyLocation) ∧
    (addStop [] ⟨"Null Island Offset", ⟨0, 7⟩⟩).1 = [] :=
  ⟨(addStop_spec [] ⟨"Santa Clara University", ⟨37, -121⟩⟩).1.mpr
      ⟨by decide, by norm_num, by norm_num⟩,
    (addStop_spec [] ⟨"Null Island Offset", ⟨0, 7⟩⟩).2.2 (Or.inl rfl)⟩

/-- Claim C10 counterexample: a summary whose nominal duration is 0 (and
no traffic duration) with a departure strictly later than the required
arrival.  The claim's premise holds (the estimated arrival, departure
plus the nominal duration, is strictly later than the required
arrival), yet the handler does not set the error, keeps the stored
required arrival, and still requests sunlight analysis and notifies the
parent, because the JavaScript truthiness guard skips the validation
when the travel-seconds value is 0. -/
theorem handleGoogleMapsRoute_c10_counterexample :
    responseTravelSeconds (some ⟨1000, 0, none⟩) = some 0 ∧
    (100000 : Int) + 0 * 1000 > 50000 ∧
    handleGoogleMapsRoute (some 100000) 0 (some 50000) (some ⟨1000, 0, none⟩) =
      ⟨false, some 50000, true, true⟩ := by
  refine ⟨rfl, by norm_num, ?_⟩
  rfl

/-- Claim C10 (amended): whenever a required arrival time is set, the
effective travel seconds (traffic-adjusted when present, otherwise
nominal) is present and nonzero, and the estimated arrival (departure
or now, plus the travel time) is strictly later than the required
arrival, the handler sets the insufficient-delivery-time error, resets
the stored required arrival to empty, and returns without requesting
sunlight-risk analysis and without notifying the parent. -/
theorem handleGoogleMapsRoute_arrival_validation
    (start : Option Int) (now required : Int) (summary : Option GoogleRouteSummary)
    (t : Int) (ht : responseTravelSeconds summary = some t) (ht0 : t ≠ 0)
    (hlate : required < start.getD now + t * 1000) :
    handleGoogleMapsRoute start now (some required) summary = ⟨true, none, false, false⟩ := by
  simp only [handleGoogleMapsRoute, ht]
  rw [if_pos (And.intro ht0 hlate)]

/-- Witness for C10 (amended): a concrete late route triggers the error
path. -/
theorem handleGoogleMapsRoute_arrival_validation_witness :
    handleGoogleMapsRoute (some 0) 0 (some 1000) (some ⟨500, 3600, none⟩) =
      ⟨true, none, false, false⟩ :=
  handleGoogleMapsRoute_arrival_validation (some 0) 0 1000 (some ⟨500, 3600, none⟩) 3600
    rfl (by norm_num) (by norm_num)

/-! ## Helper lemmas about the HOS engine -/

/-- Unfolded form of breakSlack. -/
theorem breakSlack_eq (s : DriverState) : breakSlack s = 28800 - s.drivingSinceBreak := rfl

/-- Unfolded form of restSlack. -/
theorem restSlack_eq (s : DriverState) :
    restSlack s = min (39600 - s.drivingInWindow) (50400 - s.onDutyInWindow) := rfl

/-- A ContinueDriving answer means the proposed drive fits inside both
slacks. -/
theorem advance_eq_cont {s : DriverState} {d : Nat}
    (h : advance s d = Decision.continueDriving) :
    d ≤ breakSlack s ∧ d ≤ restSlack s := by
  unfold advance at h
  split at h
  · simp at h
  · split at h
    · simp at h
    · rename_i hc1 hc2
      omega

/-- A BreakRequired answer: the offset is the break slack, which is
crossed strictly inside the proposed drive and is strictly smaller than
the rest slack. -/
theorem advance_eq_break {s : DriverState} {d ob : Nat}
    (h : advance s d = Decision.breakRequired ob) :
    ob = breakSlack s ∧ breakSlack s < d ∧ breakSlack s < restSlack s := by
  unfold advance at h
  split at h
  · simp at h
  · split at h
    · rename_i hc1 hc2
      injection h with h1
      omega
    · simp at h

/-- A RestRequired answer: the offset is the rest slack, which is
crossed strictly inside the proposed drive and is at most the break
slack. -/
theorem advance_eq_rest {s : DriverState} {d orr : Nat}
    (h : advance s d = Decision.restRequired orr) :
    orr = restSlack s ∧ restSlack s < d ∧ restSlack s ≤ breakSlack s := by
  unfold advance at h
  split at h
  · rename_i hc1
    injection h with h1
    omega
  · split at h
    · simp at h
    · simp at h

/-- A drive that fits inside both slacks is accepted. -/
theorem advance_cont_intro {s : DriverState} {d : Nat}
    (h1 : d ≤ breakSlack s) (h2 : d ≤ restSlack s) :
    advance s d = Decision.continueDriving := by
  unfold advance
  rw [if_neg (by omega), if_neg (by omega)]

/-! ## Helper lemmas about the optimizer -/

/-- findHighRisk only returns points at or after the scan start, and
only points whose risk reaches the threshold. -/
theorem findHighRisk_ge :
    ∀ (segs : List VSeg) (acc dt : Nat) (r : ℚ),
      findHighRisk segs acc = some (dt, r) →
      optHighRiskThreshold ≤ r ∧ acc ≤ dt := by
  intro segs
  induction segs with
  | nil => intro acc dt r h; simp [findHighRisk] at h
  | cons seg rest ih =>
    intro acc dt r h
    unfold findHighRisk at h
    split at h
    · simp at h
    · split at h
      · rename_i hr
        injection h with h1
        injection h1 with h2 h3
        subst h2; subst h3
        exact ⟨hr, le_refl _⟩
      · have := ih (acc + seg.duration) dt r h
        exact ⟨this.1, by omega⟩

/-- A found point strictly inside the first scanned segment is that
segment's start. -/
theorem findHighRisk_head {seg : VSeg} {rest : List VSeg} {acc dt : Nat} {r : ℚ}
    (h : findHighRisk (seg :: rest) acc = some (dt, r))
    (hlt : dt < acc + seg.duration) : dt = acc ∧ r = seg.risk := by
  unfold findHighRisk at h
  split at h
  · simp at h
  · split at h
    · injection h with h1
      injection h1 with h2 h3
      exact ⟨h2.symm, h3.symm⟩
    · have := findHighRisk_ge rest (acc + seg.duration) dt r h
      omega

/-- The optimizer never moves a stop past the HOS-mandated instant. -/
theorem planStop_offset_le (segs : List VSeg) (m tol : Nat) :
    (planStop segs m tol).offset ≤ m := by
  unfold planStop
  rcases h : findHighRisk segs 0 with _ | ⟨dt, r⟩
  · simp
  · simp only
    split
    · rename_i hc
      exact hc.1
    · simp

/-- An unoptimized stop stays at the HOS-mandated instant. -/
theorem planStop_not_optimized {segs : List VSeg} {m tol : Nat}
    (h : (planStop segs m tol).optimized = false) :
    (planStop segs m tol).offset = m ∧ (planStop segs m tol).riskScore = none := by
  rcases hf : findHighRisk segs 0 with _ | ⟨dt, r⟩
  · simp [planStop, hf]
  · simp only [planStop, hf] at h ⊢
    split at h
    · simp at h
    · rename_i hc
      rw [if_neg hc]
      exact ⟨rfl, rfl⟩

/-- An optimized stop sits on the nearest high-risk point, within
tolerance of the mandated instant and not after it, and records that
point's risk score. -/
theorem planStop_optimized {segs : List VSeg} {m tol : Nat}
    (h : (planStop segs m tol).optimized = true) :
    ∃ r, findHighRisk segs 0 = some ((planStop segs m tol).offset, r) ∧
      (planStop segs m tol).riskScore = some r ∧
      (planStop segs m tol).offset ≤ m ∧ m ≤ (planStop segs m tol).offset + tol := by
  rcases hf : findHighRisk segs 0 with _ | ⟨dt, r⟩
  · simp [planStop, hf] at h
  · simp only [planStop, hf] at h ⊢
    split at h
    · rename_i hc
      rw [if_pos hc]
      exact ⟨r, rfl, rfl, hc.1, hc.2⟩
    · simp at h


/-! ## Assembler loop invariants -/

/-- Cons introduction for the contiguity check. -/
theorem contiguousFrom_cons {t t2 : Int} {e : ScheduleEvent} {l : List ScheduleEvent}
    (h1 : e.startTime = t) (h2 : contiguousFrom e.endTime l t2 = true) :
    contiguousFrom t (e :: l) t2 = true := by
  simp [contiguousFrom, h1, h2]

/-- Structural invariant of the assembler loop: emitted events are
contiguous from the starting instant to the final instant; the final
elapsed time is the starting elapsed time plus all remaining driving
plus the emitted stop time; driving time is conserved; stop durations
are the fixed regulatory ones and no SafetyWait is emitted; every event
has positive duration; and the first Drive event drives the current
head segment. -/
theorem scheduleLoop_shape (dep : Int) :
    ∀ (fuel : Nat) (s : DriverState) (elapsed : Nat) (segs : List VSeg)
      (evs : List ScheduleEvent) (s2 : DriverState) (e2 : Nat),
      (∀ v ∈ segs, 1 ≤ v.duration) →
      scheduleLoop dep fuel s elapsed segs = some (evs, s2, e2) →
      contiguousFrom (dep + elapsed) evs (dep + e2) = true ∧
      e2 = elapsed + segsDuration segs + stopSum evs ∧
      driveSum evs = segsDuration segs ∧
      stopsRegulation evs = true ∧
      (∀ e ∈ evs, 1 ≤ e.durationSec) ∧
      firstDriveIndex evs = segs.head?.map VSeg.index := by
  intro fuel
  induction fuel with
  | zero =>
    intro s elapsed segs evs s2 e2 _ h
    simp [scheduleLoop] at h
  | succ fuel ih =>
    intro s elapsed segs evs s2 e2 hpos h
    cases segs with
    | nil =>
      simp only [scheduleLoop, Option.some.injEq, Prod.mk.injEq] at h
      obtain ⟨rfl, rfl, rfl⟩ := h
      refine ⟨by simp [contiguousFrom], by simp [segsDuration, stopSum], ?_, rfl, ?_, ?_⟩
      · simp [driveSum, segsDuration]
      · simp
      · simp [firstDriveIndex]
    | cons seg rest =>
      have hsegpos : 1 ≤ seg.duration := hpos seg (by simp)
      have hrestpos : ∀ v ∈ rest, 1 ≤ v.duration := fun v hv => hpos v (by simp [hv])
      simp only [scheduleLoop] at h
      split at h
      -- ContinueDriving
      · split at h
        · simp at h
        · rename_i evs1 s1 e1 heq
          simp only [Option.some.injEq, Prod.mk.injEq] at h
          obtain ⟨rfl, rfl, rfl⟩ := h
          obtain ⟨ihc, ihe, ihd, ihr, ihp, _⟩ :=
            ih (applyDrive s seg.duration) (elapsed + seg.duration) rest evs1 s1 e1
              hrestpos heq
          refine ⟨?_, ?_, ?_, ?_, ?_, ?_⟩
          · refine contiguousFrom_cons (by simp [ScheduleEvent.startTime]) ?_
            simp only [ScheduleEvent.endTime, ScheduleEvent.startTime, ScheduleEvent.durationSec]
            convert ihc using 2
            push_cast
            ring
          · simp only [segsDuration, stopSum, List.map_cons, List.sum_cons, stopSeconds] at ihe ⊢
            omega
          · simp only [driveSum, segsDuration, List.map_cons, List.sum_cons, driveSeconds] at ihd ⊢
            omega
          · simpa [stopsRegulation] using ihr
          · intro e he
            rcases List.mem_cons.mp he with rfl | he1
            · simpa [ScheduleEvent.durationSec] using hsegpos
            · exact ihp e he1
          · simp [firstDriveIndex]
      -- BreakRequired
      · rename_i ob hadv
        split at h
        · simp at h
        · rename_i evs1 s1 e1 heq
          obtain ⟨hob, hoblt, _⟩ := advance_eq_break hadv
          have hole : (planStop (seg :: rest) ob optBreakDeferToleranceSeconds).offset ≤ ob :=
            planStop_offset_le _ _ _
          set p := planStop (seg :: rest) ob optBreakDeferToleranceSeconds with hp
          have hofflt : p.offset < seg.duration := by omega
          have hpos2 : ∀ v ∈ (⟨seg.index, seg.risk, seg.duration - p.offset⟩ : VSeg) :: rest,
              1 ≤ v.duration := by
            intro v hv
            rcases List.mem_cons.mp hv with rfl | hv1
            · simp only
              omega
            · exact hrestpos v hv1
          obtain ⟨ihc, ihe, ihd, ihr, ihp, ihf⟩ :=
            ih (applyBreak (applyDrive s p.offset)) (elapsed + p.offset + hosBreakDurationSeconds)
              (⟨seg.index, seg.risk, seg.duration - p.offset⟩ :: rest) evs1 s1 e1 hpos2 heq
          split at h
          -- offset = 0
          · rename_i ho
            simp only [Option.some.injEq, Prod.mk.injEq] at h
            obtain ⟨rfl, rfl, rfl⟩ := h
            refine ⟨?_, ?_, ?_, ?_, ?_, ?_⟩
            · refine contiguousFrom_cons (by simp [ScheduleEvent.startTime, ho]) ?_
              simp only [ScheduleEvent.endTime, ScheduleEvent.startTime, ScheduleEvent.durationSec]
              convert ihc using 2
              push_cast
              ring
            · simp only [segsDuration, stopSum, List.map_cons, List.sum_cons, stopSeconds] at ihe ⊢
              omega
            · simp only [driveSum, segsDuration, List.map_cons, List.sum_cons, driveSeconds] at ihd ⊢
              omega
            · simpa [stopsRegulation] using ihr
            · intro e he
              rcases List.mem_cons.mp he with rfl | he1
              · simp [ScheduleEvent.durationSec, hosBreakDurationSeconds]
              · exact ihp e he1
            · simp only [firstDriveIndex]
              rw [ihf]
              simp
          -- offset > 0
          · rename_i ho
            simp only [Option.some.injEq, Prod.mk.injEq] at h
            obtain ⟨rfl, rfl, rfl⟩ := h
            refine ⟨?_, ?_, ?_, ?_, ?_, ?_⟩
            · refine contiguousFrom_cons (by simp [ScheduleEvent.startTime]) ?_
              refine contiguousFrom_cons ?_ ?_
              · simp only [ScheduleEvent.endTime, ScheduleEvent.startTime, ScheduleEvent.durationSec]
                ring
              · simp only [ScheduleEvent.endTime, ScheduleEvent.startTime, ScheduleEvent.durationSec]
                convert ihc using 2
                push_cast
                ring
            · simp only [segsDuration, stopSum, List.map_cons, List.sum_cons, stopSeconds] at ihe ⊢
              omega
            · simp only [driveSum, segsDuration, List.map_cons, List.sum_cons, driveSeconds] at ihd ⊢
              omega
            · simpa [stopsRegulation] using ihr
            · intro e he
              rcases List.mem_cons.mp he with rfl | he1
              · simp only [ScheduleEvent.durationSec]
                omega
              · rcases List.mem_cons.mp he1 with rfl | he2
                · simp [ScheduleEvent.durationSec, hosBreakDurationSeconds]
                · exact ihp e he2
            · simp [firstDriveIndex]
      -- RestRequired
      · rename_i orr hadv
        split at h
        · simp at h
        · rename_i evs1 s1 e1 heq
          obtain ⟨horr, horrlt, _⟩ := advance_eq_rest hadv
          have hole : (planStop (seg :: rest) orr optRestDeferToleranceSeconds).offset ≤ orr :=
            planStop_offset_le _ _ _
          set p := planStop (seg :: rest) orr optRestDeferToleranceSeconds with hp
          have hofflt : p.offset < seg.duration := by omega
          have hpos2 : ∀ v ∈ (⟨seg.index, seg.risk, seg.duration - p.offset⟩ : VSeg) :: rest,
              1 ≤ v.duration := by
            intro v hv
            rcases List.mem_cons.mp hv with rfl | hv1
            · simp only
              omega
            · exact hrestpos v hv1
          obtain ⟨ihc, ihe, ihd, ihr, ihp, ihf⟩ :=
            ih (applyRest (applyDrive s p.offset)) (elapsed + p.offset + hosRestDurationSeconds)
              (⟨seg.index, seg.risk, seg.duration - p.offset⟩ :: rest) evs1 s1 e1 hpos2 heq
          split at h
          -- offset = 0
          · rename_i ho
            simp only [Option.some.injEq, Prod.mk.injEq] at h
            obtain ⟨rfl, rfl, rfl⟩ := h
            refine ⟨?_, ?_, ?_, ?_, ?_, ?_⟩
            · refine contiguousFrom_cons (by simp [ScheduleEvent.startTime, ho]) ?_
              simp only [ScheduleEvent.endTime, ScheduleEvent.startTime, ScheduleEvent.durationSec]
              convert ihc using 2
              push_cast
              ring
            · simp only [segsDuration, stopSum, List.map_cons, List.sum_cons, stopSeconds] at ihe ⊢
              omega
            · simp only [driveSum, segsDuration, List.map_cons, List.sum_cons, driveSeconds] at ihd ⊢
              omega
            · simpa [stopsRegulation] using ihr
            · intro e he
              rcases List.mem_cons.mp he with rfl | he1
              · simp [ScheduleEvent.durationSec, hosRestDurationSeconds]
              · exact ihp e he1
            · simp only [firstDriveIndex]
              rw [ihf]
              simp
          -- offset > 0
          · rename_i ho
            simp only [Option.some.injEq, Prod.mk.injEq] at h
            obtain ⟨rfl, rfl, rfl⟩ := h
            refine ⟨?_, ?_, ?_, ?_, ?_, ?_⟩
            · refine contiguousFrom_cons (by simp [ScheduleEvent.startTime]) ?_
              refine contiguousFrom_cons ?_ ?_
              · simp only [ScheduleEvent.endTime, ScheduleEvent.startTime, ScheduleEvent.durationSec]
                ring
              · simp only [ScheduleEvent.endTime, ScheduleEvent.startTime, ScheduleEvent.durationSec]
                convert ihc using 2
                push_cast
                ring
            · simp only [segsDuration, stopSum, List.map_cons, List.sum_cons, stopSeconds] at ihe ⊢
              omega
            · simp only [driveSum, segsDuration, List.map_cons, List.sum_cons, driveSeconds] at ihd ⊢
              omega
            · simpa [stopsRegulation] using ihr
            · intro e he
              rcases List.mem_cons.mp he with rfl | he1
              · simp only [ScheduleEvent.durationSec]
                omega
              · rcases List.mem_cons.mp he1 with rfl | he2
                · simp [ScheduleEvent.durationSec, hosRestDurationSeconds]
                · exact ihp e he2
            · simp [firstDriveIndex]

/-- HOS invariant of the assembler loop: starting from a state
satisfying the invariant, every emitted Drive event ends with all
three counters within their regulatory limits, and replaying the
events through the HOS engine answers ContinueDriving for every Drive
event. -/
theorem scheduleLoop_hos (dep : Int) :
    ∀ (fuel : Nat) (s : DriverState) (elapsed : Nat) (segs : List VSeg)
      (evs : List ScheduleEvent) (s2 : DriverState) (e2 : Nat),
      (∀ v ∈ segs, 1 ≤ v.duration) → stateOk s →
      scheduleLoop dep fuel s elapsed segs = some (evs, s2, e2) →
      driveEndsOk s evs = true ∧ replayContinue s evs = true := by
  intro fuel
  induction fuel with
  | zero =>
    intro s elapsed segs evs s2 e2 _ _ h
    simp [scheduleLoop] at h
  | succ fuel ih =>
    intro s elapsed segs evs s2 e2 hpos hs h
    cases segs with
    | nil =>
      simp only [scheduleLoop, Option.some.injEq, Prod.mk.injEq] at h
      obtain ⟨rfl, rfl, rfl⟩ := h
      exact ⟨rfl, rfl⟩
    | cons seg rest =>
      have hsegpos : 1 ≤ seg.duration := hpos seg (by simp)
      have hrestpos : ∀ v ∈ rest, 1 ≤ v.duration := fun v hv => hpos v (by simp [hv])
      simp only [scheduleLoop] at h
      split at h
      -- ContinueDriving
      · rename_i hadv
        split at h
        · simp at h
        · rename_i evs1 s1 e1 heq
          simp only [Option.some.injEq, Prod.mk.injEq] at h
          obtain ⟨rfl, rfl, rfl⟩ := h
          obtain ⟨hc1, hc2⟩ := advance_eq_cont hadv
          have hkey : s.drivingSinceBreak + seg.duration ≤ hosBreakAfterSeconds ∧
              s.drivingInWindow + seg.duration ≤ hosMaxDrivingSeconds ∧
              s.onDutyInWindow + seg.duration ≤ hosMaxOnDutySeconds := by
            simp only [stateOk, breakSlack, restSlack, hosBreakAfterSeconds,
              hosMaxDrivingSeconds, hosMaxOnDutySeconds,
              hosBreakDurationSeconds] at hs hc1 hc2 ⊢
            omega
          have hs2 : stateOk (applyDrive s seg.duration) := by
            simp only [stateOk, applyDrive, hosBreakAfterSeconds, hosMaxDrivingSeconds,
              hosMaxOnDutySeconds, hosBreakDurationSeconds] at hs ⊢
            simp only [hosBreakAfterSeconds, hosMaxDrivingSeconds,
              hosMaxOnDutySeconds] at hkey
            omega
          obtain ⟨ihd, ihr⟩ := ih (applyDrive s seg.duration) (elapsed + seg.duration) rest
            evs1 s1 e1 hrestpos hs2 heq
          constructor
          · simp only [driveEndsOk, applyEvent, Bool.and_eq_true, decide_eq_true_eq]
            exact ⟨⟨hkey.1, hkey.2.1, hkey.2.2⟩, ihd⟩
          · simp only [replayContinue, applyEvent, Bool.and_eq_true, decide_eq_true_eq]
            exact ⟨hadv, ihr⟩
      -- BreakRequired
      · rename_i ob hadv
        split at h
        · simp at h
        · rename_i evs1 s1 e1 heq
          obtain ⟨hob, hoblt, hobr⟩ := advance_eq_break hadv
          have hole : (planStop (seg :: rest) ob optBreakDeferToleranceSeconds).offset ≤ ob :=
            planStop_offset_le _ _ _
          set p := planStop (seg :: rest) ob optBreakDeferToleranceSeconds with hp
          have hkey : s.drivingSinceBreak + p.offset ≤ hosBreakAfterSeconds ∧
              s.drivingInWindow + p.offset ≤ hosMaxDrivingSeconds ∧
              s.onDutyInWindow + p.offset < hosMaxOnDutySeconds := by
            simp only [stateOk, breakSlack, restSlack, hosBreakAfterSeconds,
              hosMaxDrivingSeconds, hosMaxOnDutySeconds,
              hosBreakDurationSeconds] at hs hob hoblt hobr ⊢
            omega
          have hcont : advance s p.offset = Decision.continueDriving := by
            refine advance_cont_intro (by omega) (by omega)
          have hs2 : stateOk (applyBreak (applyDrive s p.offset)) := by
            simp only [stateOk, applyBreak, applyDrive, hosBreakAfterSeconds,
              hosMaxDrivingSeconds, hosMaxOnDutySeconds, hosBreakDurationSeconds] at hs ⊢
            simp only [hosBreakAfterSeconds, hosMaxDrivingSeconds,
              hosMaxOnDutySeconds] at hkey
            omega
          obtain ⟨ihd, ihr⟩ := ih (applyBreak (applyDrive s p.offset))
            (elapsed + p.offset + hosBreakDurationSeconds)
            (⟨seg.index, seg.risk, seg.duration - p.offset⟩ :: rest) evs1 s1 e1
            (by
              intro v hv
              rcases List.mem_cons.mp hv with rfl | hv1
              · simp only
                omega
              · exact hrestpos v hv1) hs2 heq
          split at h
          -- offset = 0
          · rename_i ho
            simp only [Option.some.injEq, Prod.mk.injEq] at h
            obtain ⟨rfl, rfl, rfl⟩ := h
            constructor
            · simp only [driveEndsOk, applyEvent, Bool.and_eq_true]
              refine ⟨by trivial, ?_⟩
              have : applyBreak (applyDrive s p.offset) =
                  (⟨0, s.drivingInWindow, s.onDutyInWindow + hosBreakDurationSeconds⟩ :
                    DriverState) := by
                simp [applyBreak, applyDrive, ho]
              rw [this] at ihd
              exact ihd
            · simp only [replayContinue, applyEvent, Bool.and_eq_true]
              refine ⟨by trivial, ?_⟩
              have : applyBreak (applyDrive s p.offset) =
                  (⟨0, s.drivingInWindow, s.onDutyInWindow + hosBreakDurationSeconds⟩ :
                    DriverState) := by
                simp [applyBreak, applyDrive, ho]
              rw [this] at ihr
              exact ihr
          -- offset > 0
          · rename_i ho
            simp only [Option.some.injEq, Prod.mk.injEq] at h
            obtain ⟨rfl, rfl, rfl⟩ := h
            constructor
            · simp only [driveEndsOk, applyEvent, Bool.and_eq_true, decide_eq_true_eq]
              exact ⟨⟨hkey.1, hkey.2.1, le_of_lt hkey.2.2⟩, by trivial, ihd⟩
            · simp only [replayContinue, applyEvent, Bool.and_eq_true, decide_eq_true_eq]
              exact ⟨hcont, by trivial, ihr⟩
      -- RestRequired
      · rename_i orr hadv
        split at h
        · simp at h
        · rename_i evs1 s1 e1 heq
          obtain ⟨horr, horrlt, horb⟩ := advance_eq_rest hadv
          have hole : (planStop (seg :: rest) orr optRestDeferToleranceSeconds).offset ≤ orr :=
            planStop_offset_le _ _ _
          set p := planStop (seg :: rest) orr optRestDeferToleranceSeconds with hp
          have hcont : advance s p.offset = Decision.continueDriving := by
            refine advance_cont_intro (by omega) (by omega)
          have hs2 : stateOk (applyRest (applyDrive s p.offset)) := by
            simp only [stateOk, applyRest, hosBreakAfterSeconds,
              hosMaxDrivingSeconds, hosMaxOnDutySeconds, hosBreakDurationSeconds]
            omega
          obtain ⟨ihd, ihr⟩ := ih (applyRest (applyDrive s p.offset))
            (elapsed + p.offset + hosRestDurationSeconds)
            (⟨seg.index, seg.risk, seg.duration - p.offset⟩ :: rest) evs1 s1 e1
            (by
              intro v hv
              rcases List.mem_cons.mp hv with rfl | hv1
              · simp only
                omega
              · exact hrestpos v hv1) hs2 heq
          have hrst : applyRest (applyDrive s p.offset) = (⟨0, 0, 0⟩ : DriverState) := rfl
          split at h
          -- offset = 0
          · rename_i ho
            simp only [Option.some.injEq, Prod.mk.injEq] at h
            obtain ⟨rfl, rfl, rfl⟩ := h
            constructor
            · simp only [driveEndsOk, applyEvent, Bool.and_eq_true]
              refine ⟨by trivial, ?_⟩
              rw [hrst] at ihd
              exact ihd
            · simp only [replayContinue, applyEvent, Bool.and_eq_true]
              refine ⟨by trivial, ?_⟩
              rw [hrst] at ihr
              exact ihr
          -- offset > 0
          · rename_i ho
            simp only [Option.some.injEq, Prod.mk.injEq] at h
            obtain ⟨rfl, rfl, rfl⟩ := h
            have hkey : s.drivingSinceBreak + p.offset ≤ hosBreakAfterSeconds ∧
                s.drivingInWindow + p.offset ≤ hosMaxDrivingSeconds ∧
                s.onDutyInWindow + p.offset ≤ hosMaxOnDutySeconds := by
              have ho1 : 1 ≤ p.offset := by omega
              simp only [stateOk, breakSlack, restSlack, hosBreakAfterSeconds,
                hosMaxDrivingSeconds, hosMaxOnDutySeconds,
                hosBreakDurationSeconds] at hs horr horrlt horb ⊢
              omega
            constructor
            · simp only [driveEndsOk, applyEvent, Bool.and_eq_true, decide_eq_true_eq]
              refine ⟨⟨hkey.1, hkey.2.1, hkey.2.2⟩, by trivial, ?_⟩
              rw [hrst] at ihd
              exact ihd
            · simp only [replayContinue, applyEvent, Bool.and_eq_true, decide_eq_true_eq]
              refine ⟨hcont, by trivial, ?_⟩
              rw [hrst] at ihr
              exact ihr

/-- Optimizer invariant of the assembler loop: every optimized stop
records the risk score of the segment driven right after it, which is
at least the high-risk threshold. -/
theorem scheduleLoop_opt (dep : Int) (riskOf : Nat → ℚ) :
    ∀ (fuel : Nat) (s : DriverState) (elapsed : Nat) (segs : List VSeg)
      (evs : List ScheduleEvent) (s2 : DriverState) (e2 : Nat),
      (∀ v ∈ segs, 1 ≤ v.duration) → (∀ v ∈ segs, v.risk = riskOf v.index) →
      scheduleLoop dep fuel s elapsed segs = some (evs, s2, e2) →
      optStopsOk riskOf evs = true := by
  intro fuel
  induction fuel with
  | zero =>
    intro s elapsed segs evs s2 e2 _ _ h
    simp [scheduleLoop] at h
  | succ fuel ih =>
    intro s elapsed segs evs s2 e2 hpos hrisk h
    cases segs with
    | nil =>
      simp only [scheduleLoop, Option.some.injEq, Prod.mk.injEq] at h
      obtain ⟨rfl, rfl, rfl⟩ := h
      rfl
    | cons seg rest =>
      have hsegpos : 1 ≤ seg.duration := hpos seg (by simp)
      have hrestpos : ∀ v ∈ rest, 1 ≤ v.duration := fun v hv => hpos v (by simp [hv])
      have hrestrisk : ∀ v ∈ rest, v.risk = riskOf v.index := fun v hv => hrisk v (by simp [hv])
      simp only [scheduleLoop] at h
      split at h
      -- ContinueDriving
      · split at h
        · simp at h
        · rename_i evs1 s1 e1 heq
          simp only [Option.some.injEq, Prod.mk.injEq] at h
          obtain ⟨rfl, rfl, rfl⟩ := h
          have := ih (applyDrive s seg.duration) (elapsed + seg.duration) rest evs1 s1 e1
            hrestpos hrestrisk heq
          simpa [optStopsOk, optimizedStop] using this
      -- BreakRequired
      · rename_i ob hadv
        split at h
        · simp at h
        · rename_i evs1 s1 e1 heq
          obtain ⟨hob, hoblt, hobr⟩ := advance_eq_break hadv
          have hole : (planStop (seg :: rest) ob optBreakDeferToleranceSeconds).offset ≤ ob :=
            planStop_offset_le _ _ _
          set p := planStop (seg :: rest) ob optBreakDeferToleranceSeconds with hp
          have hpos2 : ∀ v ∈ (⟨seg.index, seg.risk, seg.duration - p.offset⟩ : VSeg) :: rest,
              1 ≤ v.duration := by
            intro v hv
            rcases List.mem_cons.mp hv with rfl | hv1
            · simp only
              omega
            · exact hrestpos v hv1
          have hrisk2 : ∀ v ∈ (⟨seg.index, seg.risk, seg.duration - p.offset⟩ : VSeg) :: rest,
              v.risk = riskOf v.index := by
            intro v hv
            rcases List.mem_cons.mp hv with rfl | hv1
            · simpa using hrisk seg (by simp)
            · exact hrestrisk v hv1
          have ihopt := ih (applyBreak (applyDrive s p.offset))
            (elapsed + p.offset + hosBreakDurationSeconds)
            (⟨seg.index, seg.risk, seg.duration - p.offset⟩ :: rest) evs1 s1 e1 hpos2 hrisk2 heq
          have hfirst : firstDriveIndex evs1 = some seg.index := by
            have := (scheduleLoop_shape dep fuel (applyBreak (applyDrive s p.offset))
              (elapsed + p.offset + hosBreakDurationSeconds)
              (⟨seg.index, seg.risk, seg.duration - p.offset⟩ :: rest) evs1 s1 e1 hpos2
              heq).2.2.2.2.2
            simpa using this
          rcases hopt : p.optimized with _ | _
          -- not optimized
          · have hno := planStop_not_optimized (hp ▸ hopt)
            split at h
            · rename_i ho
              simp only [Option.some.injEq, Prod.mk.injEq] at h
              obtain ⟨rfl, rfl, rfl⟩ := h
              simpa [optStopsOk, optimizedStop, hopt] using ihopt
            · rename_i ho
              simp only [Option.some.injEq, Prod.mk.injEq] at h
              obtain ⟨rfl, rfl, rfl⟩ := h
              simpa [optStopsOk, optimizedStop, hopt] using ihopt
          -- optimized
          · obtain ⟨r, hfind, hrs, hle, htol⟩ := planStop_optimized (hp ▸ hopt)
            rw [← hp] at hfind hrs
            have hofflt : p.offset < 0 + seg.duration := by omega
            obtain ⟨hoff0, hrq⟩ := findHighRisk_head hfind hofflt
            have hthr : optHighRiskThreshold ≤ r := (findHighRisk_ge _ _ _ _ hfind).1
            split at h
            · rename_i ho
              simp only [Option.some.injEq, Prod.mk.injEq] at h
              obtain ⟨rfl, rfl, rfl⟩ := h
              simp only [optStopsOk, optimizedStop, riskScoreOf, hopt, hrs, hfirst,
                if_true, Bool.and_eq_true, decide_eq_true_eq]
              refine ⟨⟨?_, hthr⟩, ihopt⟩
              rw [hrq]
              exact hrisk seg (by simp)
            · rename_i ho
              exact absurd hoff0 ho
      -- RestRequired
      · rename_i orr hadv
        split at h
        · simp at h
        · rename_i evs1 s1 e1 heq
          obtain ⟨horr, horrlt, horb⟩ := advance_eq_rest hadv
          have hole : (planStop (seg :: rest) orr optRestDeferToleranceSeconds).offset ≤ orr :=
            planStop_offset_le _ _ _
          set p := planStop (seg :: rest) orr optRestDeferToleranceSeconds with hp
          have hpos2 : ∀ v ∈ (⟨seg.index, seg.risk, seg.duration - p.offset⟩ : VSeg) :: rest,
              1 ≤ v.duration := by
            intro v hv
            rcases List.mem_cons.mp hv with rfl | hv1
            · simp only
              omega
            · exact hrestpos v hv1
          have hrisk2 : ∀ v ∈ (⟨seg.index, seg.risk, seg.duration - p.offset⟩ : VSeg) :: rest,
              v.risk = riskOf v.index := by
            intro v hv
            rcases List.mem_cons.mp hv with rfl | hv1
            · simpa using hrisk seg (by simp)
            · exact hrestrisk v hv1
          have ihopt := ih (applyRest (applyDrive s p.offset))
            (elapsed + p.offset + hosRestDurationSeconds)
            (⟨seg.index, seg.risk, seg.duration - p.offset⟩ :: rest) evs1 s1 e1 hpos2 hrisk2 heq
          have hfirst : firstDriveIndex evs1 = some seg.index := by
            have := (scheduleLoop_shape dep fuel (applyRest (applyDrive s p.offset))
              (elapsed + p.offset + hosRestDurationSeconds)
              (⟨seg.index, seg.risk, seg.duration - p.offset⟩ :: rest) evs1 s1 e1 hpos2
              heq).2.2.2.2.2
            simpa using this
          rcases hopt : p.optimized with _ | _
          -- not optimized
          · split at h
            · rename_i ho
              simp only [Option.some.injEq, Prod.mk.injEq] at h
              obtain ⟨rfl, rfl, rfl⟩ := h
              simpa [optStopsOk, optimizedStop, hopt] using ihopt
            · rename_i ho
              simp only [Option.some.injEq, Prod.mk.injEq] at h
              obtain ⟨rfl, rfl, rfl⟩ := h
              simpa [optStopsOk, optimizedStop, hopt] using ihopt
          -- optimized
          · obtain ⟨r, hfind, hrs, hle, htol⟩ := planStop_optimized (hp ▸ hopt)
            rw [← hp] at hfind hrs
            have hofflt : p.offset < 0 + seg.duration := by omega
            obtain ⟨hoff0, hrq⟩ := findHighRisk_head hfind hofflt
            have hthr : optHighRiskThreshold ≤ r := (findHighRisk_ge _ _ _ _ hfind).1
            split at h
            · rename_i ho
              simp only [Option.some.injEq, Prod.mk.injEq] at h
              obtain ⟨rfl, rfl, rfl⟩ := h
              simp only [optStopsOk, optimizedStop, riskScoreOf, hopt, hrs, hfirst,
                if_true, Bool.and_eq_true, decide_eq_true_eq]
              refine ⟨⟨?_, hthr⟩, ihopt⟩
              rw [hrq]
              exact hrisk seg (by simp)
            · rename_i ho
              exact absurd hoff0 ho

/-- If the whole remaining driving fits inside both slacks, the loop
emits no stop events. -/
theorem scheduleLoop_noStops (dep : Int) :
    ∀ (fuel : Nat) (s : DriverState) (elapsed : Nat) (segs : List VSeg)
      (evs : List ScheduleEvent) (s2 : DriverState) (e2 : Nat),
      scheduleLoop dep fuel s elapsed segs = some (evs, s2, e2) →
      segsDuration segs ≤ breakSlack s → segsDuration segs ≤ restSlack s →
      noStops evs = true := by
  intro fuel
  induction fuel with
  | zero =>
    intro s elapsed segs evs s2 e2 h _ _
    simp [scheduleLoop] at h
  | succ fuel ih =>
    intro s elapsed segs evs s2 e2 h h1 h2
    cases segs with
    | nil =>
      simp only [scheduleLoop, Option.some.injEq, Prod.mk.injEq] at h
      obtain ⟨rfl, rfl, rfl⟩ := h
      rfl
    | cons seg rest =>
      simp only [scheduleLoop] at h
      split at h
      -- ContinueDriving
      · split at h
        · simp at h
        · rename_i evs1 s1 e1 heq
          simp only [Option.some.injEq, Prod.mk.injEq] at h
          obtain ⟨rfl, rfl, rfl⟩ := h
          have hb : segsDuration rest ≤ breakSlack (applyDrive s seg.duration) := by
            simp only [segsDuration, List.map_cons, List.sum_cons, breakSlack,
              applyDrive, hosBreakAfterSeconds] at h1 ⊢
            omega
          have hr : segsDuration rest ≤ restSlack (applyDrive s seg.duration) := by
            simp only [segsDuration, List.map_cons, List.sum_cons, restSlack,
              applyDrive, hosMaxDrivingSeconds, hosMaxOnDutySeconds] at h2 ⊢
            omega
          have := ih (applyDrive s seg.duration) (elapsed + seg.duration) rest evs1 s1 e1
            heq hb hr
          simpa [noStops, isStopEvent] using this
      -- BreakRequired
      · rename_i ob hadv
        obtain ⟨hob, hoblt, _⟩ := advance_eq_break hadv
        exfalso
        simp only [segsDuration, List.map_cons, List.sum_cons] at h1
        omega
      -- RestRequired
      · rename_i orr hadv
        obtain ⟨horr, horrlt, _⟩ := advance_eq_rest hadv
        exfalso
        simp only [segsDuration, List.map_cons, List.sum_cons] at h2
        omega

/-- An event list without stops contributes no stop seconds. -/
theorem noStops_stopSum : ∀ (l : List ScheduleEvent), noStops l = true → stopSum l = 0 := by
  intro l
  induction l with
  | nil => intro _; rfl
  | cons e l ih =>
    intro h
    simp only [noStops, Bool.and_eq_true, Bool.not_eq_true'] at h
    cases e with
    | drive i t d =>
      simp only [stopSum, List.map_cons, List.sum_cons, stopSeconds]
      simpa [stopSum] using ih h.2
    | brk t d b r => simp [isStopEvent] at h
    | rest t d b r => simp [isStopEvent] at h
    | safetyWait t d => simp [isStopEvent] at h

/-- A contiguous event list is chained: each event ends no later than
the next one starts. -/
theorem contiguous_chain :
    ∀ (l : List ScheduleEvent) (t t2 : Int), contiguousFrom t l t2 = true →
      List.Chain' (fun a b => a.endTime ≤ b.startTime) l := by
  intro l
  induction l with
  | nil => intro t t2 _; exact List.chain'_nil
  | cons a l ih =>
    intro t t2 h
    simp only [contiguousFrom, Bool.and_eq_true, decide_eq_true_eq] at h
    rw [List.chain'_cons']
    constructor
    · intro y hy
      cases l with
      | nil => simp at hy
      | cons b l2 =>
        simp only [List.head?_cons, Option.mem_def, Option.some.injEq] at hy
        subst hy
        simp only [contiguousFrom, Bool.and_eq_true, decide_eq_true_eq] at h
        exact le_of_eq h.2.1.symm
    · exact ih a.endTime t2 h.2

/-- In a contiguous event list the last event ends at the final
instant. -/
theorem contiguous_last :
    ∀ (l : List ScheduleEvent) (t t2 : Int) (e : ScheduleEvent),
      contiguousFrom t l t2 = true → l.getLast? = some e → e.endTime = t2 := by
  intro l
  induction l with
  | nil => intro t t2 e _ hl; simp at hl
  | cons a l ih =>
    intro t t2 e h hl
    simp only [contiguousFrom, Bool.and_eq_true, decide_eq_true_eq] at h
    cases l with
    | nil =>
      simp only [List.getLast?_singleton, Option.some.injEq] at hl
      subst hl
      simpa [contiguousFrom] using h.2
    | cons b l2 =>
      rw [List.getLast?_cons_cons] at hl
      exact ih a.endTime t2 e h.2 hl

/-- Validated segments have positive durations. -/
theorem validSegs_pos (riskOf : Nat → ℚ) :
    ∀ (i : Nat) (segs : List RouteSegment), ∀ v ∈ validSegs riskOf i segs, 1 ≤ v.duration := by
  intro i segs
  induction segs generalizing i with
  | nil => intro v hv; simp [validSegs] at hv
  | cons sg rest ih =>
    intro v hv
    simp only [validSegs] at hv
    split at hv
    · rename_i hpos
      rcases List.mem_cons.mp hv with rfl | hv1
      · simp only
        omega
      · exact ih (i + 1) v hv1
    · exact ih (i + 1) v hv

/-- Validated segments carry the memoized risk score of their index. -/
theorem validSegs_risk (riskOf : Nat → ℚ) :
    ∀ (i : Nat) (segs : List RouteSegment),
      ∀ v ∈ validSegs riskOf i segs, v.risk = riskOf v.index := by
  intro i segs
  induction segs generalizing i with
  | nil => intro v hv; simp [validSegs] at hv
  | cons sg rest ih =>
    intro v hv
    simp only [validSegs] at hv
    split at hv
    · rcases List.mem_cons.mp hv with rfl | hv1
      · rfl
      · exact ih (i + 1) v hv1
    · exact ih (i + 1) v hv

/-- The validated segments carry exactly the route's total driving
seconds. -/
theorem validSegs_duration (riskOf : Nat → ℚ) :
    ∀ (i : Nat) (segs : List RouteSegment),
      segsDuration (validSegs riskOf i segs) =
        (segs.map fun sg => sg.durationSeconds.toNat).sum := by
  intro i segs
  induction segs generalizing i with
  | nil => rfl
  | cons sg rest ih =>
    simp only [validSegs, List.map_cons, List.sum_cons]
    split
    · rename_i hpos
      simp only [segsDuration, List.map_cons, List.sum_cons]
      have := ih (i + 1)
      simp only [segsDuration] at this
      omega
    · rename_i hpos
      have h0 : sg.durationSeconds.toNat = 0 := by omega
      rw [h0, ih (i + 1)]
      omega

/-- A route containing a segment with negative duration fails
validation at some index. -/
theorem firstInvalid_isSome :
    ∀ (i : Nat) (segs : List RouteSegment),
      (∃ sg ∈ segs, sg.durationSeconds < 0) → ∃ j, firstInvalid i segs = some j := by
  intro i segs
  induction segs generalizing i with
  | nil => intro h; simp at h
  | cons sg rest ih =>
    intro h
    simp only [firstInvalid]
    split
    · exact ⟨i, rfl⟩
    · rename_i hcond
      obtain ⟨sg1, hmem, hneg⟩ := h
      rcases List.mem_cons.mp hmem with rfl | hmem1
      · exact absurd (Or.inl hneg) hcond
      · exact ih (i + 1) ⟨sg1, hmem1, hneg⟩

/-- Elimination form of a successful computeSchedule run. -/
theorem computeSchedule_ok_elim {riskOf : Nat → ℚ} {segments : List RouteSegment}
    {dep : Int} {sch : Schedule} (h : computeSchedule riskOf segments dep = .ok sch) :
    ∃ evs sEnd eEnd,
      scheduleLoop dep (4 * segsDuration (validSegs riskOf 0 segments) + 4) ⟨0, 0, 0⟩ 0
          (validSegs riskOf 0 segments) = some (evs, sEnd, eEnd) ∧
      sch = ⟨dep, dep + eEnd, segsDuration (validSegs riskOf 0 segments), eEnd, evs,
        driveEndsOk ⟨0, 0, 0⟩ evs⟩ := by
  unfold computeSchedule at h
  split at h
  · simp at h
  · split at h
    · simp at h
    · split at h
      · simp at h
      · rename_i evs sEnd eEnd heq
        simp only [Except.ok.injEq] at h
        exact ⟨evs, sEnd, eEnd, heq, h.symm⟩

/-- The zero driver state satisfies the loop invariant. -/
theorem stateOk_zero : stateOk ⟨0, 0, 0⟩ :=
  ⟨Nat.zero_le _, Nat.zero_le _, Nat.zero_le _⟩

/-- Claim C1: for every route successfully processed by
computeSchedule, replaying the emitted events shows that at the end of
every Drive event the cumulative driving since the last break is at
most 8 hours, the cumulative driving within the duty window is at most
11 hours, and the on-duty time within the window is at most 14 hours;
consequently the Schedule's HOS-compliant flag is true on every
successful return. -/
theorem computeSchedule_hos_compliant (riskOf : Nat → ℚ) (segments : List RouteSegment)
    (dep : Int) (sch : Schedule) (h : computeSchedule riskOf segments dep = .ok sch) :
    driveEndsOk ⟨0, 0, 0⟩ sch.events = true ∧ sch.hosCompliant = true := by
  obtain ⟨evs, sEnd, eEnd, heq, rfl⟩ := computeSchedule_ok_elim h
  have hok := scheduleLoop_hos dep _ ⟨0, 0, 0⟩ 0 (validSegs riskOf 0 segments) evs sEnd eEnd
    (validSegs_pos riskOf 0 segments) stateOk_zero heq
  exact ⟨hok.1, hok.1⟩

/-- Witness for C1: a concrete 10-hour single-segment route is
scheduled with a mandatory break, passes the replayed end-of-drive
compliance check, and carries hosCompliant = true. -/
theorem computeSchedule_hos_compliant_witness :
    computeSchedule (fun _ => 0) [⟨1000, 36000⟩] 0 =
      .ok ⟨0, 37800, 36000, 37800,
        [.drive 0 0 28800, .brk 28800 1800 false none, .drive 0 30600 7200], true⟩ ∧
    driveEndsOk ⟨0, 0, 0⟩
        [.drive 0 0 28800, .brk 28800 1800 false none, .drive 0 30600 7200] = true ∧
    (true : Bool) = true :=
  ⟨rfl,
    (computeSchedule_hos_compliant (fun _ => 0) [⟨1000, 36000⟩] 0
      ⟨0, 37800, 36000, 37800,
        [.drive 0 0 28800, .brk 28800 1800 false none, .drive 0 30600 7200], true⟩
      rfl).1,
    (computeSchedule_hos_compliant (fun _ => 0) [⟨1000, 36000⟩] 0
      ⟨0, 37800, 36000, 37800,
        [.drive 0 0 28800, .brk 28800 1800 false none, .drive 0 30600 7200], true⟩
      rfl).2⟩

/-- Claim C4: in every Schedule returned by computeSchedule, every stop
marked optimized records a risk score at least 70 that is the memoized
risk of the segment driven right after the stop (the segment in
progress at the stop's start instant), and replaying the whole emitted
schedule through the HOS engine answers ContinueDriving for every
Drive event — deferral never pushes a counter past a threshold. -/
theorem computeSchedule_optimized_stops (riskOf : Nat → ℚ) (segments : List RouteSegment)
    (dep : Int) (sch : Schedule) (h : computeSchedule riskOf segments dep = .ok sch) :
    optStopsOk riskOf sch.events = true ∧ replayContinue ⟨0, 0, 0⟩ sch.events = true := by
  obtain ⟨evs, sEnd, eEnd, heq, rfl⟩ := computeSchedule_ok_elim h
  refine ⟨?_, ?_⟩
  · exact scheduleLoop_opt dep riskOf _ ⟨0, 0, 0⟩ 0 (validSegs riskOf 0 segments) evs sEnd
      eEnd (validSegs_pos riskOf 0 segments) (validSegs_risk riskOf 0 segments) heq
  · exact (scheduleLoop_hos dep _ ⟨0, 0, 0⟩ 0 (validSegs riskOf 0 segments) evs sEnd eEnd
      (validSegs_pos riskOf 0 segments) stateOk_zero heq).2

/-- Witness for C4: a route whose second segment is high-risk right at
the mandated break point produces an optimized break recording risk 80,
and the whole schedule replays to ContinueDriving. -/
theorem computeSchedule_optimized_stops_witness :
    computeSchedule (fun i => if i = 1 then 80 else 0) [⟨5, 27000⟩, ⟨5, 7200⟩] 0 =
      .ok ⟨0, 36000, 34200, 36000,
        [.drive 0 0 27000, .brk 27000 1800 true (some 80), .drive 1 28800 7200], true⟩ ∧
    optStopsOk (fun i => if i = 1 then 80 else 0)
        [.drive 0 0 27000, .brk 27000 1800 true (some 80), .drive 1 28800 7200] = true ∧
    replayContinue ⟨0, 0, 0⟩
        [.drive 0 0 27000, .brk 27000 1800 true (some 80), .drive 1 28800 7200] = true :=
  ⟨rfl,
    (computeSchedule_optimized_stops (fun i => if i = 1 then 80 else 0)
      [⟨5, 27000⟩, ⟨5, 7200⟩] 0
      ⟨0, 36000, 34200, 36000,
        [.drive 0 0 27000, .brk 27000 1800 true (some 80), .drive 1 28800 7200], true⟩
      rfl).1,
    (computeSchedule_optimized_stops (fun i => if i = 1 then 80 else 0)
      [⟨5, 27000⟩, ⟨5, 7200⟩] 0
      ⟨0, 36000, 34200, 36000,
        [.drive 0 0 27000, .brk 27000 1800 true (some 80), .drive 1 28800 7200], true⟩
      rfl).2⟩

/-- Claim C6: in every Schedule returned by computeSchedule, every
Break event lasts exactly 30 minutes, every Rest event exactly 600
minutes, and no SafetyWait event (the only kind with a caller-supplied
duration) is ever emitted by the assembler. -/
theorem computeSchedule_stop_durations (riskOf : Nat → ℚ) (segments : List RouteSegment)
    (dep : Int) (sch : Schedule) (h : computeSchedule riskOf segments dep = .ok sch) :
    stopsRegulation sch.events = true := by
  obtain ⟨evs, sEnd, eEnd, heq, rfl⟩ := computeSchedule_ok_elim h
  exact (scheduleLoop_shape dep _ ⟨0, 0, 0⟩ 0 (validSegs riskOf 0 segments) evs sEnd eEnd
    (validSegs_pos riskOf 0 segments) heq).2.2.2.1

/-- Witness for C6: the 10-hour route's schedule contains a break and
passes the fixed-duration check. -/
theorem computeSchedule_stop_durations_witness :
    stopsRegulation
      [ScheduleEvent.drive 0 0 28800, .brk 28800 1800 false none, .drive 0 30600 7200] =
      true :=
  computeSchedule_stop_durations (fun _ => 0) [⟨1000, 36000⟩] 0
    ⟨0, 37800, 36000, 37800,
      [.drive 0 0 28800, .brk 28800 1800 false none, .drive 0 30600 7200], true⟩ rfl

/-- Claim C7: a route whose total driving time is at most 8 hours (and
at most the 11-hour window) is scheduled without any Break or Rest
event, and its total elapsed time equals its total driving time, which
is the route's summed duration. -/
theorem computeSchedule_short_route (riskOf : Nat → ℚ) (segments : List RouteSegment)
    (dep : Int) (sch : Schedule)
    (hshort : (segments.map fun sg => sg.durationSeconds.toNat).sum ≤ hosBreakAfterSeconds)
    (hshort2 : (segments.map fun sg => sg.durationSeconds.toNat).sum ≤ hosMaxDrivingSeconds)
    (h : computeSchedule riskOf segments dep = .ok sch) :
    noStops sch.events = true ∧
    sch.totalElapsedSeconds = sch.totalDrivingSeconds ∧
    sch.totalDrivingSeconds = (segments.map fun sg => sg.durationSeconds.toNat).sum := by
  obtain ⟨evs, sEnd, eEnd, heq, rfl⟩ := computeSchedule_ok_elim h
  have hdur := validSegs_duration riskOf 0 segments
  have hb : segsDuration (validSegs riskOf 0 segments) ≤ breakSlack ⟨0, 0, 0⟩ := by
    have hbs : breakSlack ⟨0, 0, 0⟩ = hosBreakAfterSeconds := rfl
    omega
  have hr : segsDuration (validSegs riskOf 0 segments) ≤ restSlack ⟨0, 0, 0⟩ := by
    have hrs : restSlack ⟨0, 0, 0⟩ = hosMaxDrivingSeconds := by decide
    omega
  have hns := scheduleLoop_noStops dep _ ⟨0, 0, 0⟩ 0 (validSegs riskOf 0 segments)
    evs sEnd eEnd heq hb hr
  have hshape := scheduleLoop_shape dep _ ⟨0, 0, 0⟩ 0 (validSegs riskOf 0 segments)
    evs sEnd eEnd (validSegs_pos riskOf 0 segments) heq
  refine ⟨hns, ?_, hdur⟩
  have he := hshape.2.1
  have h0 := noStops_stopSum evs hns
  show eEnd = segsDuration (validSegs riskOf 0 segments)
  omega

/-- Witness for C7: a 6-hour single-segment route departing 08:00
(28800 seconds past midnight) yields exactly one Drive event, no stops,
and total elapsed equal to total driving. -/
theorem computeSchedule_short_route_witness :
    computeSchedule (fun _ => 0) [⟨1000, 21600⟩] 28800 =
      .ok ⟨28800, 50400, 21600, 21600, [.drive 0 28800 21600], true⟩ ∧
    noStops [ScheduleEvent.drive 0 28800 21600] = true ∧
    (21600 : Nat) = 21600 :=
  ⟨rfl,
    (computeSchedule_short_route (fun _ => 0) [⟨1000, 21600⟩] 28800
      ⟨28800, 50400, 21600, 21600, [.drive 0 28800 21600], true⟩
      (by norm_num [hosBreakAfterSeconds]) (by norm_num [hosMaxDrivingSeconds]) rfl).1,
    (computeSchedule_short_route (fun _ => 0) [⟨1000, 21600⟩] 28800
      ⟨28800, 50400, 21600, 21600, [.drive 0 28800 21600], true⟩
      (by norm_num [hosBreakAfterSeconds]) (by norm_num [hosMaxDrivingSeconds]) rfl).2.1⟩

/-- Claim C8: in every Schedule returned by computeSchedule the events
are strictly time-ordered and non-overlapping (each event has positive
duration and ends no later than the next starts), the total elapsed
time equals the last event's end minus the departure time (0 for an
eventless schedule), and it also equals total driving time plus the sum
of all stop durations. -/
theorem computeSchedule_event_ordering (riskOf : Nat → ℚ) (segments : List RouteSegment)
    (dep : Int) (sch : Schedule) (h : computeSchedule riskOf segments dep = .ok sch) :
    List.Chain' (fun a b => a.endTime ≤ b.startTime) sch.events ∧
    (∀ e ∈ sch.events, e.startTime < e.endTime) ∧
    (sch.events = [] → sch.totalElapsedSeconds = 0) ∧
    (∀ e, sch.events.getLast? = some e →
      e.endTime = sch.departureTime + sch.totalElapsedSeconds) ∧
    sch.totalElapsedSeconds = sch.totalDrivingSeconds + stopSum sch.events := by
  obtain ⟨evs, sEnd, eEnd, heq, rfl⟩ := computeSchedule_ok_elim h
  obtain ⟨hc, he, hd, hreg, hpos, hfirst⟩ := scheduleLoop_shape dep _ ⟨0, 0, 0⟩ 0
    (validSegs riskOf 0 segments) evs sEnd eEnd (validSegs_pos riskOf 0 segments) heq
  refine ⟨contiguous_chain evs _ _ hc, ?_, ?_, ?_, ?_⟩
  · intro e hee
    have h1 := hpos e hee
    simp only [ScheduleEvent.endTime]
    omega
  · intro h0
    have h0e : evs = [] := h0
    subst h0e
    show eEnd = 0
    simp only [contiguousFrom, decide_eq_true_eq] at hc
    omega
  · intro e hlast
    exact contiguous_last evs _ _ e hc hlast
  · show eEnd = segsDuration (validSegs riskOf 0 segments) + stopSum evs
    omega

/-- Witness for C8: the 10-hour route's three events are chained and
its elapsed time is driving plus the break. -/
theorem computeSchedule_event_ordering_witness :
    List.Chain' (fun a b => a.endTime ≤ b.startTime)
      [ScheduleEvent.drive 0 0 28800, .brk 28800 1800 false none, .drive 0 30600 7200] ∧
    (37800 : Nat) = 36000 +
      stopSum [ScheduleEvent.drive 0 0 28800, .brk 28800 1800 false none,
        .drive 0 30600 7200] :=
  ⟨(computeSchedule_event_ordering (fun _ => 0) [⟨1000, 36000⟩] 0
      ⟨0, 37800, 36000, 37800,
        [.drive 0 0 28800, .brk 28800 1800 false none, .drive 0 30600 7200], true⟩ rfl).1,
    (computeSchedule_event_ordering (fun _ => 0) [⟨1000, 36000⟩] 0
      ⟨0, 37800, 36000, 37800,
        [.drive 0 0 28800, .brk 28800 1800 false none, .drive 0 30600 7200], true⟩
      rfl).2.2.2.2⟩

/-- Claim C5: computeSchedule fails with EmptyRoute exactly when zero
segments are supplied; it fails with InvalidSegment (at some index)
whenever a segment has negative duration (a non-finite duration has no
counterpart in this embedding); and on any error no Schedule value is
returned. -/
theorem computeSchedule_errors (riskOf : Nat → ℚ) (segments : List RouteSegment) (dep : Int) :
    (computeSchedule riskOf segments dep = .error .emptyRoute ↔ segments = []) ∧
    ((∃ sg ∈ segments, sg.durationSeconds < 0) →
      ∃ i, computeSchedule riskOf segments dep = .error (.invalidSegment i)) ∧
    (∀ err, computeSchedule riskOf segments dep = .error err →
      ∀ sch, computeSchedule riskOf segments dep ≠ .ok sch) := by
  refine ⟨⟨?_, ?_⟩, ?_, ?_⟩
  · intro h
    by_contra hne
    unfold computeSchedule at h
    rw [if_neg (by simpa using hne)] at h
    split at h
    · simp at h
    · split at h
      · simp at h
      · simp at h
  · intro h
    subst h
    rfl
  · intro hex
    obtain ⟨j, hj⟩ := firstInvalid_isSome 0 segments hex
    have hne : segments ≠ [] := by
      rintro rfl
      obtain ⟨sg, hm, _⟩ := hex
      simp at hm
    refine ⟨j, ?_⟩
    unfold computeSchedule
    rw [if_neg (by simpa using hne), hj]
  · intro err herr sch hok
    rw [herr] at hok
    simp at hok

/-- Witness for C5: zero segments yield EmptyRoute; a route with a
negative-duration segment yields InvalidSegment. -/
theorem computeSchedule_errors_witness :
    computeSchedule (fun _ => 0) ([] : List RouteSegment) 0 = .error .emptyRoute ∧
    ∃ i, computeSchedule (fun _ => 0) [⟨1000, -5⟩] 0 = .error (.invalidSegment i) :=
  ⟨(computeSchedule_errors (fun _ => 0) [] 0).1.mpr rfl,
    (computeSchedule_errors (fun _ => 0) [⟨1000, -5⟩] 0).2.1
      ⟨⟨1000, -5⟩, by simp, by norm_num⟩⟩

/-- Claim C3 counterexample: one 10-hour high-risk segment.  The HOS
engine mandates the break at offset 28800 and the scan finds a
high-risk point at offset 0, within the 1-hour tolerance, so the rule
as claimed starts the break at offset 0 marked optimized; the optimizer
instead leaves it at the mandated offset 28800 unmarked (taking the
break 8 hours before its mandated instant is outside the defer
tolerance measured from that instant), and the emitted schedule shows
the unmarked break at 28800. -/
theorem planStop_c3_counterexample :
    claimedPlanStop [⟨0, 80, 36000⟩] 28800 optBreakDeferToleranceSeconds =
      ⟨0, true, some 80⟩ ∧
    planStop [⟨0, 80, 36000⟩] 28800 optBreakDeferToleranceSeconds =
      ⟨28800, false, none⟩ ∧
    computeSchedule (fun _ => 80) [⟨1000, 36000⟩] 0 =
      .ok ⟨0, 37800, 36000, 37800,
        [.drive 0 0 28800, .brk 28800 1800 false none, .drive 0 30600 7200], true⟩ :=
  ⟨rfl, rfl, rfl⟩

/-- Claim C3 (amended): when the HOS engine mandates a stop at offset m
from the signalling instant, the optimizer scans at most 4 hours of
upcoming travel for the nearest point with risk score at least 70 and
moves the stop to that point's offset dt, marked optimized = true,
exactly when the point is not after the mandated instant and the
mandated instant lies within the defer tolerance of it (dt ≤ m and
m ≤ dt + tolerance, 1 hour for breaks and 2 hours for rests); in every
other case, including when deferring to the high-risk point would pass
the HOS-mandated instant, the stop starts at the unmodified mandated
instant with optimized = false and no recorded risk score. -/
theorem planStop_amended (segs : List VSeg) (m tol : Nat) :
    (planStop segs m tol).offset ≤ m ∧
    ((planStop segs m tol).optimized = false →
      (planStop segs m tol).offset = m ∧ (planStop segs m tol).riskScore = none) ∧
    ((planStop segs m tol).optimized = true →
      ∃ r, findHighRisk segs 0 = some ((planStop segs m tol).offset, r) ∧
        optHighRiskThreshold ≤ r ∧
        (planStop segs m tol).riskScore = some r ∧
        (planStop segs m tol).offset ≤ m ∧ m ≤ (planStop segs m tol).offset + tol) ∧
    (∀ dt r, findHighRisk segs 0 = some (dt, r) → dt ≤ m → m ≤ dt + tol →
      planStop segs m tol = ⟨dt, true, some r⟩) := by
  refine ⟨planStop_offset_le segs m tol, ?_, ?_, ?_⟩
  · intro h
    exact planStop_not_optimized h
  · intro h
    obtain ⟨r, h1, h2, h3, h4⟩ := planStop_optimized h
    exact ⟨r, h1, (findHighRisk_ge _ _ _ _ h1).1, h2, h3, h4⟩
  · intro dt r hf hle htol
    simp only [planStop, hf]
    rw [if_pos (And.intro hle htol)]

/-- Witness for C3 (amended): a mandated break 30 minutes ahead with a
high-risk point now is moved to now and marked optimized. -/
theorem planStop_amended_witness :
    planStop [⟨0, 80, 3600⟩] 1800 optBreakDeferToleranceSeconds = ⟨0, true, some 80⟩ :=
  (planStop_amended [⟨0, 80, 3600⟩] 1800 optBreakDeferToleranceSeconds).2.2.2 0 80 rfl
    (by norm_num) (by norm_num [optBreakDeferToleranceSeconds])
